import Mathlib

/-!
Shallow embedding of the table-of-contents core of the
obsidian-automatic-table-of-contents repository.

Sources embedded here:
* `src/headings.ts` — heading filter, depth normalizer, markdown list builders.
* `main.ts` (unnamed part_000) — `buildTree`, `wikitextToHtml`, `escapeHtml`
  inside the foldable rendering path.

The pattern test `isHeadingAllowed` and the formatter
`getFormattedMarkdownHeading` live in `src/markdown.ts`, which is not part of
the provided sources; they are modelled abstractly as function-valued fields of
the options record (the spec describes them as an opaque per-label test and a
pure per-label formatter).
-/

/-- Rendering style, mirroring the `style` option of the plugin
(`nestedList`, `nestedOrderedList`, `inlineFirstLevel`). -/
inductive Style : Type where
  | nestedList
  | nestedOrderedList
  | inlineFirstLevel
deriving DecidableEq, Repr

/-- Obsidian heading-cache entry as used by the core: a label (`heading`) and a
nesting level.  The opaque `position` field is never consulted by the core and
is omitted.  Levels are modelled as natural numbers (the spec requires
integers ≥ 1 and asks that 0 be tolerated). -/
structure HeadingCache where
  heading : String
  level : Nat
deriving DecidableEq, Repr

/-- Output element of the heading filter: a surviving heading together with its
normalized zero-based depth (`FilteredHeading` in `src/headings.ts`). -/
structure FilteredHeading where
  heading : HeadingCache
  depth : Nat
deriving DecidableEq, Repr

/-- Configuration for one render pass (`TableOfContentsOptions`).

Modelled from the spec: `allowed` stands for `isHeadingAllowed(label, options)`
from the missing `src/markdown.ts` (the include-or-exclude pattern test applied
to a heading label), `exclude` for the truthiness of `options.exclude` (whether
the exclude variant of the test is the active one), and `fmt` for
`getFormattedMarkdownHeading(label, options)` (the pure per-heading text
formatter of spec §4.2). -/
structure TableOfContentsOptions where
  minLevel : Nat
  maxLevel : Nat
  style : Style
  title : String
  hideWhenEmpty : Bool
  foldable : Bool
  exclude : Bool
  allowed : String → Bool
  fmt : String → String

/-- Effective minimum level: `options.minLevel > 0 ? options.minLevel :
Math.min(...headings.map(h => h.level))`.  For an empty heading list the JS
expression is `Infinity`; that value is never observed (every consumer then
iterates over the empty list), so the empty case is given an arbitrary value. -/
def effectiveMinLevel (headings : List HeadingCache) (options : TableOfContentsOptions) : Nat :=
  if 0 < options.minLevel then options.minLevel
  else
    match headings with
    | [] => 0
    | h :: hs => hs.foldl (fun m x => min m x.level) h.level

/-- The single left-to-right filtering pass of `getFilteredHeadings`
(src/headings.ts lines 64-83), with the mutable `unallowedLevel` accumulator
made an explicit argument.  Each `continue` of the JS loop is a recursive call
that drops the current heading. -/
def filterLoop (options : TableOfContentsOptions) (minLevel : Nat) :
    Nat → List HeadingCache → List HeadingCache
  | _, [] => []
  | unallowedLevel, h :: rest =>
    if 0 < unallowedLevel ∧ unallowedLevel < h.level then
      filterLoop options minLevel unallowedLevel rest
    else
      let u := if h.level ≤ unallowedLevel then 0 else unallowedLevel
      if options.allowed h.heading = false then
        filterLoop options minLevel (if options.exclude then h.level else u) rest
      else if h.level < minLevel then
        filterLoop options minLevel u rest
      else if 0 < options.maxLevel ∧ options.maxLevel < h.level then
        filterLoop options minLevel u rest
      else if h.heading.length = 0 then
        filterLoop options minLevel u rest
      else
        h :: filterLoop options minLevel u rest

/-- Stack-based depth normalization (`computeNormalizedDepths`,
src/headings.ts lines 101-115).  The JS array-stack (top at the end) is
modelled as a list with its top at the head: popping all entries `≥ level` is
`dropWhile`, pushing is `cons`, and the assigned depth is the new stack size
minus one. -/
def computeNormalizedDepthsAux : List HeadingCache → List Nat → List Nat
  | [], _ => []
  | h :: rest, levelStack =>
    let s := levelStack.dropWhile (fun l => decide (h.level ≤ l))
    s.length :: computeNormalizedDepthsAux rest (h.level :: s)

/-- Entry point of depth normalization: start from the empty stack. -/
def computeNormalizedDepths (headings : List HeadingCache) : List Nat :=
  computeNormalizedDepthsAux headings []

/-- `getFilteredHeadings` (src/headings.ts lines 58-86): run the filtering
pass, then zip the survivors with their normalized depths (the JS
`filteredHeadings.map((heading, i) => ...)`; the two lists always have equal
length). -/
def getFilteredHeadings (headings : List HeadingCache) (options : TableOfContentsOptions) :
    List FilteredHeading :=
  let filtered := filterLoop options (effectiveMinLevel headings options) 0 headings
  List.zipWith (fun h d => FilteredHeading.mk h d) filtered (computeNormalizedDepths filtered)

/-- `getMarkdownListFromHeadings` (src/headings.ts lines 88-99): one line per
filtered heading — `depth` tabs, the list marker, a space and the formatted
label — joined by newlines; `null` (here `none`) when there are no lines. -/
def getMarkdownListFromHeadings (headings : List HeadingCache) (isOrdered : Bool)
    (options : TableOfContentsOptions) : Option String :=
  let marker := if isOrdered then "1." else "-"
  let filtered := getFilteredHeadings headings options
  let lines := filtered.map (fun fh =>
    String.mk (List.replicate fh.depth '\t') ++ marker ++ " " ++ options.fmt fh.heading.heading)
  if 0 < lines.length then some (String.intercalate "\n" lines) else none

/-- `getMarkdownInlineFirstLevelFromHeadings` (src/headings.ts lines 117-131):
keep the raw headings exactly at the effective minimum level, with a non-empty
label, passing the pattern test; format them and join with `" | "`.  `null`
(here `none`) when the selection is empty. -/
def getMarkdownInlineFirstLevelFromHeadings (headings : List HeadingCache)
    (options : TableOfContentsOptions) : Option String :=
  let minLevel := effectiveMinLevel headings options
  let items :=
    (((headings.filter (fun h => decide (h.level = minLevel))).filter
        (fun h => decide (0 < h.heading.length))).filter
      (fun h => options.allowed h.heading)).map
      (fun h => options.fmt h.heading)
  if 0 < items.length then some (String.intercalate " | " items) else none

/-- The `markdownHandlersByStyle` dispatch of `getMarkdownFromHeadings`. -/
def styleHandler (headings : List HeadingCache) (options : TableOfContentsOptions) :
    Option String :=
  match options.style with
  | Style.nestedList => getMarkdownListFromHeadings headings false options
  | Style.nestedOrderedList => getMarkdownListFromHeadings headings true options
  | Style.inlineFirstLevel => getMarkdownInlineFirstLevelFromHeadings headings options

/-- `getMarkdownFromHeadings` (src/headings.ts lines 11-33): build the title
markdown (title plus a style-dependent separator when the title is non-empty),
then either append the style handler's output, or — when the handler signals
"no content" — return the empty string (`hideWhenEmpty`) or the literal
empty-state notice. -/
def getMarkdownFromHeadings (headings : List HeadingCache)
    (options : TableOfContentsOptions) : String :=
  let titleMarkdown :=
    if 0 < options.title.length then
      options.title ++ (if options.style = Style.inlineFirstLevel then " " else "\n")
    else ""
  match styleHandler headings options with
  | none =>
    if options.hideWhenEmpty then ""
    else titleMarkdown ++ "_Table of contents: no headings found_"
  | some markdownHeadings => titleMarkdown ++ markdownHeadings

/-- Tree node of the foldable rendering path (`TreeNode` in main.ts):
formatted text plus ordered children. -/
inductive TreeNode : Type where
  | mk (text : String) (children : List TreeNode)

/-- Text of a tree node. -/
def TreeNode.text : TreeNode → String
  | TreeNode.mk t _ => t

/-- Children of a tree node. -/
def TreeNode.children : TreeNode → List TreeNode
  | TreeNode.mk _ cs => cs

/-- Open stack entry of `buildTree`: the node's text, its stored depth, and the
children accumulated for it so far.  In the JS original every node is attached
to its parent's `children` array (or to `roots`) at creation time and is then
filled in by mutation; this purely functional embedding instead keeps a node
open while it is on the stack and attaches it when it is popped, which yields
the identical forest. -/
abbrev Frame : Type := String × Nat × List TreeNode

/-- Pop continued: the just-closed node `n` is swallowed by further frames of
stored depth ≥ `d` and finally attached to the first surviving frame's
children, or to the roots when the stack runs out. -/
def popInto (d : Nat) (n : TreeNode) : List Frame → List TreeNode → List Frame × List TreeNode
  | [], roots => ([], roots ++ [n])
  | (t, fd, cs) :: rest, roots =>
    if d ≤ fd then popInto d (TreeNode.mk t (cs ++ [n])) rest roots
    else ((t, fd, cs ++ [n]) :: rest, roots)

/-- The `while` loop of `buildTree`: pop stack entries whose stored depth is
≥ the current item's depth `d`, closing each popped frame into its parent. -/
def popFrames (d : Nat) : List Frame → List TreeNode → List Frame × List TreeNode
  | [], roots => ([], roots)
  | (t, fd, cs) :: rest, roots =>
    if d ≤ fd then popInto d (TreeNode.mk t cs) rest roots
    else ((t, fd, cs) :: rest, roots)

/-- Close a node into all remaining open frames at the end of the input. -/
def collapseNode (n : TreeNode) : List Frame → List TreeNode → List TreeNode
  | [], roots => roots ++ [n]
  | (t, _, cs) :: rest, roots => collapseNode (TreeNode.mk t (cs ++ [n])) rest roots

/-- Close every frame left on the stack once the input is exhausted,
materialising the attachments the JS version performed eagerly by mutation. -/
def collapse : List Frame → List TreeNode → List TreeNode
  | [], roots => roots
  | (t, _, cs) :: rest, roots => collapseNode (TreeNode.mk t cs) rest roots

/-- Main loop of `buildTree` (main.ts lines 184-208): for each filtered
heading, format its text, pop frames of depth ≥ the item's depth, and push a
fresh open frame for the new node. -/
def buildTreeAux (options : TableOfContentsOptions) :
    List FilteredHeading → List Frame → List TreeNode → List TreeNode
  | [], stack, roots => collapse stack roots
  | item :: rest, stack, roots =>
    let pr := popFrames item.depth stack roots
    buildTreeAux options rest ((options.fmt item.heading.heading, item.depth, []) :: pr.1) pr.2

/-- `buildTree` of the foldable renderer: fold the flat filtered list into a
forest of `TreeNode`s, starting from an empty stack and no roots. -/
def buildTree (options : TableOfContentsOptions) (flat : List FilteredHeading) : List TreeNode :=
  buildTreeAux options flat [] []

mutual
/-- Preorder flattening of a single node, recording for it and every
descendant the number of parent containers it is nested inside (the observer
for the round-trip tree shape property). -/
def flattenNode : TreeNode → Nat → List (String × Nat)
  | TreeNode.mk t cs, d => (t, d) :: flattenForest cs (d + 1)

/-- Preorder flattening of a forest whose roots sit at nesting depth `d`. -/
def flattenForest : List TreeNode → Nat → List (String × Nat)
  | [], _ => []
  | n :: ns, d => flattenNode n d ++ flattenForest ns d
end

/-- Preorder content of the open spine of the stack, listed bottom-first: each
frame is one level deeper than the previous one, and its already-closed
children sit between it and the next open frame. -/
def spineFlatten : List Frame → Nat → List (String × Nat)
  | [], _ => []
  | (t, _, cs) :: rest, d => (t, d) :: (flattenForest cs (d + 1) ++ spineFlatten rest (d + 1))

/-- The list `[n-1, n-2, ..., 0]`: the stored depths of the open stack (top
first) after an item of depth `n-1` has been processed. -/
def downFrom : Nat → List Nat
  | 0 => []
  | n + 1 => n :: downFrom n

/-- Valid rooted-forest depth sequence continuing from bound `b`: the next
depth may be at most `b`, and afterwards each depth may exceed its predecessor
by at most one.  `depthsOk 0 ds` is exactly the invariant guaranteed by the
heading filter's depth normalization. -/
def depthsOk : Nat → List Nat → Bool
  | _, [] => true
  | b, d :: ds => decide (d ≤ b) && depthsOk (d + 1) ds

/-- One `replaceAll` pass with a single-character pattern, as used by
`escapeHtml` (main.ts lines 244-250). -/
def replaceAllChar (c : Char) (r : List Char) : List Char → List Char
  | [] => []
  | x :: xs => (if x = c then r else [x]) ++ replaceAllChar c r xs

/-- `escapeHtml` on character lists: the four successive `replaceAll` passes of
the source, innermost (`&`) first. -/
def escapeHtmlList (l : List Char) : List Char :=
  replaceAllChar '"' "&quot;".data
    (replaceAllChar '>' "&gt;".data
      (replaceAllChar '<' "&lt;".data
        (replaceAllChar '&' "&amp;".data l)))

/-- `escapeHtml` (main.ts lines 244-250). -/
def escapeHtml (s : String) : String :=
  String.mk (escapeHtmlList s.data)

/-- Per-character HTML escaping: the simultaneous form the four sequential
`replaceAll` passes amount to. -/
def htmlEscapeChar (c : Char) : List Char :=
  if c = '&' then "&amp;".data
  else if c = '<' then "&lt;".data
  else if c = '>' then "&gt;".data
  else if c = '"' then "&quot;".data
  else [c]

/-- Literal prefix of the anchor replacement emitted by `wikitextToHtml`. -/
def anchorOpen : List Char := "<a class=\"internal-link\" data-href=\"#".data

/-- Literal middle part of the anchor replacement (between target and display
text). -/
def anchorMid : List Char := "\">".data

/-- Literal closing part of the anchor replacement. -/
def anchorClose : List Char := "</a>".data

/-- Attempt to match the regex `\[\[#([^\]|]+)\|([^\]]+)\]\]` at the start of
the character list.  Both character classes are matched greedily by
`takeWhile`; since each class excludes the character that must follow it, the
greedy run is the only candidate, exactly as for the JS regex engine.  On
success, returns the two capture groups and the remainder after the match. -/
def tryMatch (l : List Char) : Option (List Char × List Char × List Char) :=
  match l with
  | '[' :: '[' :: '#' :: r =>
    let r1 := r.takeWhile (fun c => !(c == ']' || c == '|'))
    let rest1 := r.dropWhile (fun c => !(c == ']' || c == '|'))
    if r1.length = 0 then none
    else
      match rest1 with
      | '|' :: rest2 =>
        let r2 := rest2.takeWhile (fun c => !(c == ']'))
        let rest3 := rest2.dropWhile (fun c => !(c == ']'))
        if r2.length = 0 then none
        else
          match rest3 with
          | ']' :: ']' :: rest4 => some (r1, r2, rest4)
          | _ => none
      | _ => none
  | _ => none

/-- The global-replace scan of `wikitextToHtml` (main.ts lines 235-242): walk
the text left to right; at a match, emit the anchor element with HTML-escaped
target and display text and resume after the match; otherwise copy one
character verbatim.  The extra fuel argument makes the scan structurally
recursive; `fuel = length of the text` always suffices because every step
consumes at least one character. -/
def wikiScanFuel : Nat → List Char → List Char
  | 0, l => l
  | _ + 1, [] => []
  | fuel + 1, c :: cs =>
    match tryMatch (c :: cs) with
    | some (link, display, rest) =>
      anchorOpen ++ escapeHtmlList link ++ anchorMid ++ escapeHtmlList display ++
        anchorClose ++ wikiScanFuel fuel rest
    | none => c :: wikiScanFuel fuel cs

/-- The scan at its canonical fuel. -/
def wikiScan (l : List Char) : List Char :=
  wikiScanFuel l.length l

/-- `wikitextToHtml` (main.ts lines 235-242). -/
def wikitextToHtml (s : String) : String :=
  String.mk (wikiScan s.data)

/-- Default-style options: auto minLevel, no maxLevel, nested list, no title,
a pattern test that accepts everything, and the identity formatter. -/
def sampleOptions : TableOfContentsOptions :=
  TableOfContentsOptions.mk 0 0 Style.nestedList "" false false false
    (fun _ => true) (fun s => s)

/-- Options with an include pattern matching only the labels `A` and `C`. -/
def includeACOptions : TableOfContentsOptions :=
  TableOfContentsOptions.mk 0 0 Style.nestedList "" false false false
    (fun s => s == "A" || s == "C") (fun s => s)

/-- Options with an exclude pattern matching only the label `B`. -/
def excludeBOptions : TableOfContentsOptions :=
  TableOfContentsOptions.mk 0 0 Style.nestedList "" false false true
    (fun s => !(s == "B")) (fun s => s)

/-- The heading list `[(A,1),(B,2),(C,3),(D,1)]` of the cascade scenarios. -/
def sampleHeadingsABCD : List HeadingCache :=
  [HeadingCache.mk "A" 1, HeadingCache.mk "B" 2,
   HeadingCache.mk "C" 3, HeadingCache.mk "D" 1]

/-- The heading list with raw levels `[1, 3, 3]` of the gap-closing scenario. -/
def gapHeadings : List HeadingCache :=
  [HeadingCache.mk "A" 1, HeadingCache.mk "B" 3, HeadingCache.mk "C" 3]

/-- The heading list `[(A,1),(B,2),(C,1)]` of the inline style scenario. -/
def inlineHeadingsABC : List HeadingCache :=
  [HeadingCache.mk "A" 1, HeadingCache.mk "B" 2, HeadingCache.mk "C" 1]

/-- Options with a non-empty title, otherwise like `sampleOptions`. -/
def titledOptions : TableOfContentsOptions :=
  TableOfContentsOptions.mk 0 0 Style.nestedList "## ToC" false false false
    (fun _ => true) (fun s => s)

/-- A concrete filtered sequence for the tree-builder round trip. -/
def sampleFiltered : List FilteredHeading :=
  [FilteredHeading.mk (HeadingCache.mk "A" 1) 0,
   FilteredHeading.mk (HeadingCache.mk "B" 2) 1,
   FilteredHeading.mk (HeadingCache.mk "C" 3) 1,
   FilteredHeading.mk (HeadingCache.mk "D" 1) 0]

theorem computeNormalizedDepthsAux_length (hs : List HeadingCache) :
    ∀ s, (computeNormalizedDepthsAux hs s).length = hs.length := by
  induction hs with
  | nil => intro s; rfl
  | cons h rest ih => intro s; simp [computeNormalizedDepthsAux, ih]

theorem computeNormalizedDepths_length (hs : List HeadingCache) :
    (computeNormalizedDepths hs).length = hs.length :=
  computeNormalizedDepthsAux_length hs []

theorem computeNormalizedDepthsAux_head_le (hs : List HeadingCache) (s : List Nat) :
    ∀ d ∈ (computeNormalizedDepthsAux hs s).head?, d ≤ s.length := by
  cases hs with
  | nil => simp [computeNormalizedDepthsAux]
  | cons h rest =>
    intro d hd
    simp only [computeNormalizedDepthsAux, List.head?_cons, Option.mem_def,
      Option.some.injEq] at hd
    subst hd
    exact (List.dropWhile_sublist _).length_le

theorem computeNormalizedDepthsAux_chain (hs : List HeadingCache) :
    ∀ s, List.Chain' (fun a b => b ≤ a + 1) (computeNormalizedDepthsAux hs s) := by
  induction hs with
  | nil => intro s; simp [computeNormalizedDepthsAux]
  | cons h rest ih =>
    intro s
    simp only [computeNormalizedDepthsAux]
    rw [List.chain'_cons']
    constructor
    · intro b hb
      have := computeNormalizedDepthsAux_head_le rest (h.level :: s.dropWhile (fun l => decide (h.level ≤ l))) b hb
      simpa using this
    · exact ih _

theorem zipWith_mk_map_heading :
    ∀ (as : List HeadingCache) (bs : List Nat), as.length = bs.length →
      (List.zipWith (fun h d => FilteredHeading.mk h d) as bs).map FilteredHeading.heading = as := by
  intro as
  induction as with
  | nil => intro bs _; rfl
  | cons a as ih =>
    intro bs hlen
    cases bs with
    | nil => simp at hlen
    | cons b bs =>
      simp only [List.zipWith_cons_cons, List.map_cons, FilteredHeading.heading]
      rw [ih bs (by simpa using hlen)]

theorem zipWith_mk_map_depth :
    ∀ (as : List HeadingCache) (bs : List Nat), as.length = bs.length →
      (List.zipWith (fun h d => FilteredHeading.mk h d) as bs).map FilteredHeading.depth = bs := by
  intro as
  induction as with
  | nil =>
    intro bs hlen
    cases bs with
    | nil => rfl
    | cons b bs => simp at hlen
  | cons a as ih =>
    intro bs hlen
    cases bs with
    | nil => simp at hlen
    | cons b bs =>
      simp only [List.zipWith_cons_cons, List.map_cons, FilteredHeading.depth]
      rw [ih bs (by simpa using hlen)]

theorem getFilteredHeadings_map_heading (headings : List HeadingCache)
    (options : TableOfContentsOptions) :
    (getFilteredHeadings headings options).map FilteredHeading.heading
      = filterLoop options (effectiveMinLevel headings options) 0 headings := by
  apply zipWith_mk_map_heading
  exact (computeNormalizedDepths_length _).symm

theorem getFilteredHeadings_map_depth (headings : List HeadingCache)
    (options : TableOfContentsOptions) :
    (getFilteredHeadings headings options).map FilteredHeading.depth
      = computeNormalizedDepths
          (filterLoop options (effectiveMinLevel headings options) 0 headings) := by
  apply zipWith_mk_map_depth
  exact (computeNormalizedDepths_length _).symm

theorem filterLoop_sublist (options : TableOfContentsOptions) (m : Nat) :
    ∀ (hs : List HeadingCache) (u : Nat), (filterLoop options m u hs).Sublist hs := by
  intro hs
  induction hs with
  | nil => intro u; simp [filterLoop]
  | cons h rest ih =>
    intro u
    simp only [filterLoop]
    split
    · exact (ih u).cons h
    · split
      · exact (ih _).cons h
      · split
        · exact (ih _).cons h
        · split
          · exact (ih _).cons h
          · split
            · exact (ih _).cons h
            · exact (ih _).cons₂ h

/-- C4: the heading filter never reorders — the heading projection of
`getFilteredHeadings`' output is a subsequence of the input list, in original
order (the output is the input restricted to the surviving indices). -/
theorem getFilteredHeadings_order_preserving (headings : List HeadingCache)
    (options : TableOfContentsOptions) :
    ((getFilteredHeadings headings options).map FilteredHeading.heading).Sublist headings := by
  rw [getFilteredHeadings_map_heading]
  exact filterLoop_sublist options _ headings 0

/-- C1: the depth sequence produced by `getFilteredHeadings` is a gap-free
rooted-forest encoding — the first depth is 0 and each depth is at most one
greater than its predecessor; in particular the surviving raw levels
`[1, 3, 3]` receive normalized depths `[0, 1, 1]`. -/
theorem getFilteredHeadings_depths_contiguous :
    (∀ (headings : List HeadingCache) (options : TableOfContentsOptions),
      ((getFilteredHeadings headings options).map FilteredHeading.depth).headD 0 = 0
      ∧ List.Chain' (fun a b => b ≤ a + 1)
          ((getFilteredHeadings headings options).map FilteredHeading.depth))
    ∧ (getFilteredHeadings gapHeadings sampleOptions).map FilteredHeading.depth = [0, 1, 1] := by
  refine ⟨fun headings options => ⟨?_, ?_⟩, by decide⟩
  · rw [getFilteredHeadings_map_depth]
    cases h : filterLoop options (effectiveMinLevel headings options) 0 headings with
    | nil => rfl
    | cons x xs =>
      simp [computeNormalizedDepths, computeNormalizedDepthsAux]
  · rw [getFilteredHeadings_map_depth]
    exact computeNormalizedDepthsAux_chain _ []

theorem filterLoop_of_not_exclude (options : TableOfContentsOptions) (m : Nat)
    (hex : options.exclude = false) :
    ∀ hs : List HeadingCache,
      filterLoop options m 0 hs
        = hs.filter (fun h =>
            options.allowed h.heading && decide (m ≤ h.level)
              && (decide (options.maxLevel = 0) || decide (h.level ≤ options.maxLevel))
              && decide (h.heading.length ≠ 0)) := by
  intro hs
  induction hs with
  | nil => rfl
  | cons h rest ih =>
    simp only [filterLoop, hex, Bool.false_eq_true, if_false, ite_self,
      if_neg (by simp : ¬(0 < 0 ∧ 0 < h.level))]
    by_cases ha : options.allowed h.heading
    · by_cases h1 : h.level < m
      · rw [if_neg (by simp [ha]), if_pos h1, ih, List.filter_cons_of_neg]
        simp [Nat.not_le.mpr h1]
      · by_cases h2 : 0 < options.maxLevel ∧ options.maxLevel < h.level
        · obtain ⟨h2a, h2b⟩ := h2
          rw [if_neg (by simp [ha]), if_neg h1, if_pos ⟨h2a, h2b⟩, ih,
            List.filter_cons_of_neg]
          simp only [Bool.and_eq_true, Bool.or_eq_true, decide_eq_true_eq]
          rintro ⟨⟨⟨-, -⟩, hor | hor⟩, -⟩ <;> omega
        · by_cases h3 : h.heading.length = 0
          · rw [if_neg (by simp [ha]), if_neg h1, if_neg h2, if_pos h3, ih,
              List.filter_cons_of_neg]
            simp [h3]
          · rw [if_neg (by simp [ha]), if_neg h1, if_neg h2, if_neg h3, ih,
              List.filter_cons_of_pos]
            simp only [ha, Bool.true_and, Bool.and_eq_true, Bool.or_eq_true,
              decide_eq_true_eq]
            refine ⟨⟨Nat.not_lt.mp h1, ?_⟩, h3⟩
            omega
    · rw [if_pos (by simpa using ha), ih, List.filter_cons_of_neg]
      simp [ha]

/-- C2: under include mode (no active exclude pattern) there is no cascading
skip — `filterLoop` is a pointwise filter, every heading tested independently;
in particular on `[(A,1),(B,2),(C,3),(D,1)]` with an include pattern matching
only `A` and `C`, the result is exactly `A` and `C`. -/
theorem getFilteredHeadings_include_independent :
    (∀ (headings : List HeadingCache) (options : TableOfContentsOptions),
      options.exclude = false →
      filterLoop options (effectiveMinLevel headings options) 0 headings
        = headings.filter (fun h =>
            options.allowed h.heading
              && decide (effectiveMinLevel headings options ≤ h.level)
              && (decide (options.maxLevel = 0) || decide (h.level ≤ options.maxLevel))
              && decide (h.heading.length ≠ 0)))
    ∧ (getFilteredHeadings sampleHeadingsABCD includeACOptions).map FilteredHeading.heading
        = [HeadingCache.mk "A" 1, HeadingCache.mk "C" 3] := by
  refine ⟨fun headings options hex => filterLoop_of_not_exclude options _ hex headings, by decide⟩

theorem getFilteredHeadings_include_independent_witness :
    filterLoop includeACOptions (effectiveMinLevel sampleHeadingsABCD includeACOptions) 0
        sampleHeadingsABCD
      = sampleHeadingsABCD.filter (fun h =>
          includeACOptions.allowed h.heading
            && decide (effectiveMinLevel sampleHeadingsABCD includeACOptions ≤ h.level)
            && (decide (includeACOptions.maxLevel = 0)
                || decide (h.level ≤ includeACOptions.maxLevel))
            && decide (h.heading.length ≠ 0)) :=
  getFilteredHeadings_include_independent.1 sampleHeadingsABCD includeACOptions rfl

/-- C3: under exclude mode a heading that fails the pattern test is skipped
and starts a cascading exclusion (the `unallowedLevel` state becomes its
level); every subsequent heading with a strictly greater level is skipped, and
a heading with level ≤ the stored level ends the exclusion scope (the state is
cleared).  On `[(A,1),(B,2),(C,3),(D,1)]` with an exclude pattern matching `B`
the result retains exactly `A` and `D`. -/
theorem getFilteredHeadings_exclude_cascade :
    ((getFilteredHeadings sampleHeadingsABCD excludeBOptions).map FilteredHeading.heading
        = [HeadingCache.mk "A" 1, HeadingCache.mk "D" 1])
    ∧ (∀ (options : TableOfContentsOptions) (m u : Nat) (h : HeadingCache)
        (rest : List HeadingCache),
        options.exclude = true →
        options.allowed h.heading = false →
        ¬(0 < u ∧ u < h.level) →
        filterLoop options m u (h :: rest) = filterLoop options m h.level rest)
    ∧ (∀ (options : TableOfContentsOptions) (m u : Nat) (g : HeadingCache)
        (rest : List HeadingCache),
        0 < u → u < g.level →
        filterLoop options m u (g :: rest) = filterLoop options m u rest)
    ∧ (∀ (options : TableOfContentsOptions) (m u : Nat) (g : HeadingCache)
        (rest : List HeadingCache),
        g.level ≤ u →
        filterLoop options m u (g :: rest) = filterLoop options m 0 (g :: rest)) := by
  refine ⟨by decide, ?_, ?_, ?_⟩
  · intro options m u h rest hex hfail hu
    simp only [filterLoop, if_neg hu, hfail, Bool.false_eq_true, if_true, hex, if_pos rfl]
  · intro options m u g rest hu hlt
    simp only [filterLoop]
    rw [if_pos (And.intro hu hlt)]
  · intro options m u g rest hle
    have h1 : ¬(0 < u ∧ u < g.level) := by omega
    have h2 : ¬(0 < 0 ∧ 0 < g.level) := by simp
    simp only [filterLoop, if_neg h1, if_neg h2, if_pos hle, ite_self]

theorem getFilteredHeadings_exclude_cascade_witness :
    (filterLoop excludeBOptions 1 0 [HeadingCache.mk "B" 2, HeadingCache.mk "C" 3]
        = filterLoop excludeBOptions 1 2 [HeadingCache.mk "C" 3])
    ∧ (filterLoop excludeBOptions 1 2 [HeadingCache.mk "C" 3]
        = filterLoop excludeBOptions 1 2 [])
    ∧ (filterLoop excludeBOptions 1 2 [HeadingCache.mk "D" 1]
        = filterLoop excludeBOptions 1 0 [HeadingCache.mk "D" 1]) :=
  ⟨getFilteredHeadings_exclude_cascade.2.1 excludeBOptions 1 0 (HeadingCache.mk "B" 2)
      [HeadingCache.mk "C" 3] rfl (by decide) (by decide),
   getFilteredHeadings_exclude_cascade.2.2.1 excludeBOptions 1 2 (HeadingCache.mk "C" 3)
      [] (by decide) (by decide),
   getFilteredHeadings_exclude_cascade.2.2.2 excludeBOptions 1 2 (HeadingCache.mk "D" 1)
      [] (by decide)⟩

/-- C6: for the nested (un)ordered list styles, the markdown list builder
emits exactly one line per filtered heading — `depth` copies of the tab indent
unit, the marker (`-` or `1.`), a space, the formatted label — joined by
newlines, and returns the `none` sentinel (distinct from the empty string)
exactly when the filtered list is empty. -/
theorem getMarkdownListFromHeadings_lines (headings : List HeadingCache) (isOrdered : Bool)
    (options : TableOfContentsOptions) :
    getMarkdownListFromHeadings headings isOrdered options
      = if getFilteredHeadings headings options = [] then none
        else some (String.intercalate "\n" ((getFilteredHeadings headings options).map
          (fun fh =>
            String.mk (List.replicate fh.depth '\t') ++ (if isOrdered then "1." else "-")
              ++ " " ++ options.fmt fh.heading.heading))) := by
  cases h : getFilteredHeadings headings options with
  | nil => simp [getMarkdownListFromHeadings, h]
  | cons x xs => simp [getMarkdownListFromHeadings, h]

/-- C7: `getMarkdownFromHeadings` prepends a non-empty title separated by a
newline (list styles) or a space (inline style); when the style handler
signals no content — as it always does on an empty heading list — the result
is `""` under `hideWhenEmpty` and otherwise the title markdown followed by the
literal notice; the function is total, so this path never raises. -/
theorem getMarkdownFromHeadings_title_and_empty :
    (∀ (headings : List HeadingCache) (options : TableOfContentsOptions) (body : String),
      0 < options.title.length →
      styleHandler headings options = some body →
      getMarkdownFromHeadings headings options
        = (options.title ++ (if options.style = Style.inlineFirstLevel then " " else "\n"))
            ++ body)
    ∧ (∀ (headings : List HeadingCache) (options : TableOfContentsOptions),
      styleHandler headings options = none →
      getMarkdownFromHeadings headings options
        = if options.hideWhenEmpty then ""
          else
            (if 0 < options.title.length then
              options.title ++ (if options.style = Style.inlineFirstLevel then " " else "\n")
            else "") ++ "_Table of contents: no headings found_")
    ∧ (∀ options : TableOfContentsOptions, styleHandler [] options = none) := by
  refine ⟨?_, ?_, ?_⟩
  · intro headings options body ht hsh
    simp only [getMarkdownFromHeadings, hsh, if_pos ht]
  · intro headings options hsh
    simp only [getMarkdownFromHeadings, hsh]
  · intro options
    cases hst : options.style <;>
      simp [styleHandler, hst, getMarkdownListFromHeadings, getFilteredHeadings,
        getMarkdownInlineFirstLevelFromHeadings, filterLoop, computeNormalizedDepths,
        computeNormalizedDepthsAux]

theorem getMarkdownFromHeadings_title_and_empty_witness :
    (getMarkdownFromHeadings gapHeadings titledOptions
      = ("## ToC" ++ (if titledOptions.style = Style.inlineFirstLevel then " " else "\n"))
          ++ "- A\n\t- B\n\t- C")
    ∧ (getMarkdownFromHeadings [] titledOptions
      = if titledOptions.hideWhenEmpty then ""
        else
          (if 0 < titledOptions.title.length then
            titledOptions.title
              ++ (if titledOptions.style = Style.inlineFirstLevel then " " else "\n")
          else "") ++ "_Table of contents: no headings found_") :=
  ⟨getMarkdownFromHeadings_title_and_empty.1 gapHeadings titledOptions "- A\n\t- B\n\t- C"
      (by decide) (by decide),
   getMarkdownFromHeadings_title_and_empty.2.1 [] titledOptions
      (getMarkdownFromHeadings_title_and_empty.2.2 titledOptions)⟩

theorem foldl_min_le_init :
    ∀ (t : List HeadingCache) (a : Nat), t.foldl (fun m x => min m x.level) a ≤ a := by
  intro t
  induction t with
  | nil => intro a; exact Nat.le_refl a
  | cons x t ih =>
    intro a
    exact Nat.le_trans (ih (min a x.level)) (Nat.min_le_left _ _)

theorem foldl_min_le_mem :
    ∀ (t : List HeadingCache) (a : Nat) (h : HeadingCache), h ∈ t →
      t.foldl (fun m x => min m x.level) a ≤ h.level := by
  intro t
  induction t with
  | nil => intro a h hm; cases hm
  | cons x t ih =>
    intro a h hm
    rcases List.mem_cons.mp hm with rfl | hm
    · exact Nat.le_trans (foldl_min_le_init t (min a h.level)) (Nat.min_le_right _ _)
    · exact ih (min a x.level) h hm

theorem foldl_min_choice :
    ∀ (t : List HeadingCache) (a : Nat),
      t.foldl (fun m x => min m x.level) a = a
        ∨ ∃ h ∈ t, t.foldl (fun m x => min m x.level) a = h.level := by
  intro t
  induction t with
  | nil => intro a; exact Or.inl rfl
  | cons x t ih =>
    intro a
    rcases ih (min a x.level) with heq | ⟨h, hm, heq⟩
    · rcases min_choice a x.level with hmin | hmin
      · exact Or.inl (by rw [List.foldl_cons, heq, hmin])
      · exact Or.inr ⟨x, List.mem_cons_self x t, by rw [List.foldl_cons, heq, hmin]⟩
    · exact Or.inr ⟨h, List.mem_cons_of_mem x hm, by rw [List.foldl_cons, heq]⟩

/-- C8: the inline-first-level builder selects exactly the raw headings whose
level equals the effective minimum level (the configured value when positive,
else the minimum over all input headings), with a non-empty label and passing
the pattern test independently per heading (the selection predicate is
pointwise, with no cascading in either filter mode), formats them and joins
them with `" | "`, signalling `none` on an empty selection; on
`[(A,1),(B,2),(C,1)]` with auto minLevel the output is `A | C`. -/
theorem getMarkdownInlineFirstLevel_spec :
    (∀ (headings : List HeadingCache) (options : TableOfContentsOptions),
      getMarkdownInlineFirstLevelFromHeadings headings options
        = if headings.filter (fun h =>
              options.allowed h.heading
                && (decide (0 < h.heading.length)
                    && decide (h.level = effectiveMinLevel headings options))) = []
          then none
          else some (String.intercalate " | " ((headings.filter (fun h =>
              options.allowed h.heading
                && (decide (0 < h.heading.length)
                    && decide (h.level = effectiveMinLevel headings options)))).map
              (fun h => options.fmt h.heading))))
    ∧ (∀ (headings : List HeadingCache) (options : TableOfContentsOptions)
        (h : HeadingCache), options.minLevel = 0 → h ∈ headings →
        effectiveMinLevel headings options ≤ h.level)
    ∧ (∀ (headings : List HeadingCache) (options : TableOfContentsOptions),
        options.minLevel = 0 → headings ≠ [] →
        ∃ h ∈ headings, effectiveMinLevel headings options = h.level)
    ∧ getMarkdownInlineFirstLevelFromHeadings inlineHeadingsABC sampleOptions
        = some "A | C" := by
  refine ⟨?_, ?_, ?_, by decide⟩
  · intro headings options
    simp only [getMarkdownInlineFirstLevelFromHeadings, List.filter_filter]
    cases hsel : headings.filter (fun h =>
        options.allowed h.heading
          && (decide (0 < h.heading.length)
              && decide (h.level = effectiveMinLevel headings options))) with
    | nil => simp [hsel]
    | cons x xs => simp [hsel]
  · intro headings options h h0 hmem
    simp only [effectiveMinLevel, h0]
    rw [if_neg (Nat.lt_irrefl 0)]
    cases headings with
    | nil => cases hmem
    | cons x t =>
      rcases List.mem_cons.mp hmem with rfl | hm
      · exact foldl_min_le_init t h.level
      · exact foldl_min_le_mem t x.level h hm
  · intro headings options h0 hne
    simp only [effectiveMinLevel, h0]
    rw [if_neg (Nat.lt_irrefl 0)]
    cases headings with
    | nil => exact absurd rfl hne
    | cons x t =>
      rcases foldl_min_choice t x.level with heq | ⟨h, hm, heq⟩
      · exact ⟨x, List.mem_cons_self x t, heq⟩
      · exact ⟨h, List.mem_cons_of_mem x hm, heq⟩

theorem getMarkdownInlineFirstLevel_spec_witness :
    (effectiveMinLevel inlineHeadingsABC sampleOptions ≤ 1)
    ∧ (∃ h ∈ inlineHeadingsABC, effectiveMinLevel inlineHeadingsABC sampleOptions = h.level) :=
  ⟨getMarkdownInlineFirstLevel_spec.2.1 inlineHeadingsABC sampleOptions
      (HeadingCache.mk "A" 1) rfl (by decide),
   getMarkdownInlineFirstLevel_spec.2.2.1 inlineHeadingsABC sampleOptions rfl (by decide)⟩

theorem flattenForest_append (ns ms : List TreeNode) (d : Nat) :
    flattenForest (ns ++ ms) d = flattenForest ns d ++ flattenForest ms d := by
  induction ns with
  | nil => rfl
  | cons n ns ih => simp [flattenForest, ih]

theorem spineFlatten_append_single (xs : List Frame) (f : Frame) :
    ∀ d : Nat, spineFlatten (xs ++ [f]) d
      = spineFlatten xs d ++ (f.1, d + xs.length) :: flattenForest f.2.2 (d + xs.length + 1) := by
  induction xs with
  | nil =>
    intro d
    obtain ⟨t, fd, cs⟩ := f
    simp [spineFlatten]
  | cons x xs ih =>
    intro d
    obtain ⟨t, fd, cs⟩ := x
    simp only [List.cons_append, spineFlatten, List.append_eq, ih (d + 1), List.length_cons]
    have h1 : d + 1 + xs.length = d + (xs.length + 1) := by omega
    rw [h1, List.append_assoc]

theorem downFrom_length : ∀ n : Nat, (downFrom n).length = n := by
  intro n
  induction n with
  | zero => rfl
  | succ n ih => simp [downFrom, ih]

theorem collapseNode_flatten :
    ∀ (fs : List Frame) (n : TreeNode) (roots : List TreeNode),
      flattenForest (collapseNode n fs roots) 0
        = flattenForest roots 0 ++ spineFlatten fs.reverse 0 ++ flattenNode n fs.length := by
  intro fs
  induction fs with
  | nil =>
    intro n roots
    simp [collapseNode, flattenForest_append, spineFlatten, flattenForest]
  | cons x rest ih =>
    intro n roots
    obtain ⟨t, fd, cs⟩ := x
    cases n with
    | mk nt ncs =>
      simp only [collapseNode, ih, List.reverse_cons, spineFlatten_append_single,
        List.length_reverse, List.length_cons, flattenNode, flattenForest_append,
        flattenForest, Nat.zero_add, List.append_nil]
      simp [List.append_assoc]

theorem collapse_flatten :
    ∀ (fs : List Frame) (roots : List TreeNode),
      flattenForest (collapse fs roots) 0
        = flattenForest roots 0 ++ spineFlatten fs.reverse 0 := by
  intro fs roots
  cases fs with
  | nil => simp [collapse, spineFlatten]
  | cons x rest =>
    obtain ⟨t, fd, cs⟩ := x
    simp only [collapse, collapseNode_flatten, List.reverse_cons, spineFlatten_append_single,
      List.length_reverse, flattenNode, Nat.zero_add]
    simp [List.append_assoc]

theorem popInto_flatten (d : Nat) :
    ∀ (fs : List Frame) (n : TreeNode) (roots : List TreeNode),
      flattenForest (popInto d n fs roots).2 0
          ++ spineFlatten (popInto d n fs roots).1.reverse 0
        = flattenForest roots 0 ++ spineFlatten fs.reverse 0 ++ flattenNode n fs.length := by
  intro fs
  induction fs with
  | nil =>
    intro n roots
    simp [popInto, flattenForest_append, spineFlatten, flattenForest]
  | cons x rest ih =>
    intro n roots
    obtain ⟨t, fd, cs⟩ := x
    by_cases hd : d ≤ fd
    · cases n with
      | mk nt ncs =>
        simp only [popInto, if_pos hd, ih, List.reverse_cons, spineFlatten_append_single,
          List.length_reverse, List.length_cons, flattenNode, flattenForest_append,
          flattenForest, Nat.zero_add, List.append_nil]
        simp [List.append_assoc]
    · simp only [popInto, if_neg hd, List.reverse_cons, spineFlatten_append_single,
        List.length_reverse, List.length_cons, flattenNode, flattenForest_append,
        flattenForest, Nat.zero_add, List.append_nil]
      simp [List.append_assoc]

theorem popFrames_flatten (d : Nat) :
    ∀ (fs : List Frame) (roots : List TreeNode),
      flattenForest (popFrames d fs roots).2 0
          ++ spineFlatten (popFrames d fs roots).1.reverse 0
        = flattenForest roots 0 ++ spineFlatten fs.reverse 0 := by
  intro fs roots
  cases fs with
  | nil => simp [popFrames, spineFlatten]
  | cons x rest =>
    obtain ⟨t, fd, cs⟩ := x
    by_cases hd : d ≤ fd
    · simp only [popFrames, if_pos hd, popInto_flatten, List.reverse_cons,
        spineFlatten_append_single, List.length_reverse, flattenNode, Nat.zero_add]
      simp [List.append_assoc]
    · simp [popFrames, if_neg hd]

theorem popInto_depths (d : Nat) :
    ∀ (fs : List Frame) (q : Nat) (n : TreeNode) (roots : List TreeNode),
      fs.map (fun f => f.2.1) = downFrom q → d ≤ q →
      (popInto d n fs roots).1.map (fun f => f.2.1) = downFrom d := by
  intro fs
  induction fs with
  | nil =>
    intro q n roots hq hd
    cases q with
    | zero =>
      have : d = 0 := Nat.le_zero.mp hd
      subst this
      rfl
    | succ q => simp [downFrom] at hq
  | cons x rest ih =>
    intro q n roots hq hd
    obtain ⟨t, fd, cs⟩ := x
    cases q with
    | zero => simp [downFrom] at hq
    | succ q =>
      simp only [List.map_cons, downFrom, List.cons.injEq] at hq
      obtain ⟨rfl, hrest⟩ := hq
      by_cases hle : d ≤ fd
      · simp only [popInto, if_pos hle]
        exact ih fd _ roots hrest hle
      · have : d = fd + 1 := by omega
        subst this
        simp only [popInto, if_neg hle, List.map_cons, downFrom, List.cons.injEq]
        exact ⟨by trivial, hrest⟩

theorem popFrames_depths (d : Nat) :
    ∀ (fs : List Frame) (q : Nat) (roots : List TreeNode),
      fs.map (fun f => f.2.1) = downFrom q → d ≤ q →
      (popFrames d fs roots).1.map (fun f => f.2.1) = downFrom d := by
  intro fs q roots hq hd
  cases fs with
  | nil =>
    cases q with
    | zero =>
      have : d = 0 := Nat.le_zero.mp hd
      subst this
      rfl
    | succ q => simp [downFrom] at hq
  | cons x rest =>
    obtain ⟨t, fd, cs⟩ := x
    cases q with
    | zero => simp [downFrom] at hq
    | succ q =>
      simp only [List.map_cons, downFrom, List.cons.injEq] at hq
      obtain ⟨rfl, hrest⟩ := hq
      by_cases hle : d ≤ fd
      · simp only [popFrames, if_pos hle]
        exact popInto_depths d rest fd _ roots hrest hle
      · have : d = fd + 1 := by omega
        subst this
        simp only [popFrames, if_neg hle, List.map_cons, downFrom, List.cons.injEq]
        exact ⟨by trivial, hrest⟩

theorem computeNormalizedDepthsAux_depthsOk :
    ∀ (hs : List HeadingCache) (s : List Nat),
      depthsOk s.length (computeNormalizedDepthsAux hs s) = true := by
  intro hs
  induction hs with
  | nil => intro s; rfl
  | cons h rest ih =>
    intro s
    simp only [computeNormalizedDepthsAux, depthsOk, Bool.and_eq_true, decide_eq_true_eq]
    constructor
    · exact (List.dropWhile_sublist _).length_le
    · have := ih (h.level :: s.dropWhile (fun l => decide (h.level ≤ l)))
      simpa using this

theorem buildTreeAux_flatten (options : TableOfContentsOptions) :
    ∀ (items : List FilteredHeading) (fs : List Frame) (roots : List TreeNode) (q : Nat),
      fs.map (fun f => f.2.1) = downFrom q →
      depthsOk q (items.map FilteredHeading.depth) = true →
      flattenForest (buildTreeAux options items fs roots) 0
        = flattenForest roots 0 ++ spineFlatten fs.reverse 0
          ++ items.map (fun it => (options.fmt it.heading.heading, it.depth)) := by
  intro items
  induction items with
  | nil =>
    intro fs roots q hq hok
    simp [buildTreeAux, collapse_flatten]
  | cons it rest ih =>
    intro fs roots q hq hok
    simp only [List.map_cons, depthsOk, Bool.and_eq_true, decide_eq_true_eq] at hok
    obtain ⟨hdq, hok⟩ := hok
    simp only [buildTreeAux]
    have hdep := popFrames_depths it.depth fs q roots hq hdq
    have hlen : (popFrames it.depth fs roots).1.length = it.depth := by
      have hl := congrArg List.length hdep
      simpa [downFrom_length] using hl
    rw [ih ((options.fmt it.heading.heading, it.depth, []) :: (popFrames it.depth fs roots).1)
      (popFrames it.depth fs roots).2 (it.depth + 1)
      (by simp only [List.map_cons, hdep, downFrom])
      hok]
    rw [List.reverse_cons, spineFlatten_append_single]
    simp only [List.length_reverse, hlen, flattenForest, Nat.zero_add, List.map_cons]
    rw [← List.append_assoc, popFrames_flatten, List.append_assoc]
    simp

/-- C5: the forest built by `buildTree` reproduces exactly the nesting encoded
by the depth values — for every sequence whose depths form a valid rooted
forest encoding (as every `getFilteredHeadings` output does, second conjunct),
the preorder flattening of the built forest lists each formatted heading at a
nesting depth equal to its `depth` value. -/
theorem buildTree_round_trip :
    (∀ (options : TableOfContentsOptions) (seq : List FilteredHeading),
      depthsOk 0 (seq.map FilteredHeading.depth) = true →
      flattenForest (buildTree options seq) 0
        = seq.map (fun it => (options.fmt it.heading.heading, it.depth)))
    ∧ (∀ (headings : List HeadingCache) (options : TableOfContentsOptions),
      depthsOk 0 ((getFilteredHeadings headings options).map FilteredHeading.depth) = true) := by
  constructor
  · intro options seq hok
    have := buildTreeAux_flatten options seq [] [] 0 rfl hok
    simpa [buildTree, flattenForest, spineFlatten] using this
  · intro headings options
    rw [getFilteredHeadings_map_depth]
    exact computeNormalizedDepthsAux_depthsOk _ []

theorem buildTree_round_trip_witness :
    (depthsOk 0 (sampleFiltered.map FilteredHeading.depth) = true)
    ∧ flattenForest (buildTree sampleOptions sampleFiltered) 0
        = sampleFiltered.map (fun it => (sampleOptions.fmt it.heading.heading, it.depth)) :=
  ⟨by decide, buildTree_round_trip.1 sampleOptions sampleFiltered (by decide)⟩

theorem takeWhile_append_cons (p : Char → Bool) :
    ∀ (t : List Char) (x : Char) (z : List Char),
      (∀ c ∈ t, p c = true) → p x = false → (t ++ x :: z).takeWhile p = t := by
  intro t
  induction t with
  | nil =>
    intro x z _ hx
    simp [List.takeWhile_cons, hx]
  | cons c t ih =>
    intro x z ht hx
    have hc : p c = true := ht c (List.mem_cons_self c t)
    simp only [List.cons_append, List.takeWhile_cons, hc, if_true]
    rw [ih x z (fun c hc2 => ht c (List.mem_cons_of_mem _ hc2)) hx]

theorem dropWhile_append_cons (p : Char → Bool) :
    ∀ (t : List Char) (x : Char) (z : List Char),
      (∀ c ∈ t, p c = true) → p x = false → (t ++ x :: z).dropWhile p = x :: z := by
  intro t
  induction t with
  | nil =>
    intro x z _ hx
    simp [List.dropWhile_cons, hx]
  | cons c t ih =>
    intro x z ht hx
    have hc : p c = true := ht c (List.mem_cons_self c t)
    simp only [List.cons_append, List.dropWhile_cons, hc, if_true]
    exact ih x z (fun c hc2 => ht c (List.mem_cons_of_mem _ hc2)) hx

theorem tryMatch_length :
    ∀ (l a b r : List Char), tryMatch l = some (a, b, r) → r.length < l.length := by
  intro l a b r
  simp only [tryMatch]
  split
  · next rbig =>
    split
    · intro h
      exact absurd h (by simp)
    · split
      · next rest2 heq1 =>
        split
        · intro h
          exact absurd h (by simp)
        · split
          · next rest4 heq2 =>
            intro h
            obtain ⟨-, -, rfl⟩ : _ ∧ _ ∧ rest4 = r := by
              simpa using h
            have e1 : (rbig.dropWhile (fun c => !(c == ']' || c == '|'))).length ≤ rbig.length :=
              (List.dropWhile_sublist _).length_le
            rw [heq1] at e1
            have e2 : (rest2.dropWhile (fun c => !(c == ']'))).length ≤ rest2.length :=
              (List.dropWhile_sublist _).length_le
            rw [heq2] at e2
            simp only [List.length_cons] at e1 e2 ⊢
            omega
          · intro h
            exact absurd h (by simp)
      · intro h
        exact absurd h (by simp)
  · intro h
    exact absurd h (by simp)

theorem wikiScanFuel_congr :
    ∀ (f : Nat) (l : List Char), l.length ≤ f → wikiScanFuel f l = wikiScanFuel l.length l := by
  intro f
  induction f using Nat.strong_induction_on with
  | _ f ihf =>
    intro l hl
    cases f with
    | zero =>
      cases l with
      | nil => rfl
      | cons c cs => simp at hl
    | succ f =>
      cases l with
      | nil => rfl
      | cons c cs =>
        have hcs : cs.length ≤ f := by simpa using hl
        cases hm : tryMatch (c :: cs) with
        | none =>
          simp only [wikiScanFuel, hm, List.length_cons]
          rw [ihf f (by omega) cs hcs]
        | some res =>
          obtain ⟨a, b, r⟩ := res
          have hr : r.length < cs.length + 1 := tryMatch_length (c :: cs) a b r hm
          simp only [wikiScanFuel, hm, List.length_cons]
          rw [ihf f (by omega) r (by omega), ihf cs.length (by omega) r (by omega)]

theorem wikiScan_cons_none (c : Char) (cs : List Char) (hm : tryMatch (c :: cs) = none) :
    wikiScan (c :: cs) = c :: wikiScan cs := by
  simp only [wikiScan, List.length_cons, wikiScanFuel, hm]

theorem wikiScan_cons_some (c : Char) (cs a b r : List Char)
    (hm : tryMatch (c :: cs) = some (a, b, r)) :
    wikiScan (c :: cs)
      = anchorOpen ++ escapeHtmlList a ++ anchorMid ++ escapeHtmlList b
          ++ anchorClose ++ wikiScan r := by
  have hr : r.length < cs.length + 1 := tryMatch_length (c :: cs) a b r hm
  simp only [wikiScan, List.length_cons, wikiScanFuel, hm]
  rw [wikiScanFuel_congr cs.length r (by omega)]

theorem replaceAllChar_append (c : Char) (r : List Char) :
    ∀ (a b : List Char), replaceAllChar c r (a ++ b) = replaceAllChar c r a ++ replaceAllChar c r b := by
  intro a b
  induction a with
  | nil => rfl
  | cons x xs ih => simp [replaceAllChar, ih]

theorem escapeHtmlList_append (a b : List Char) :
    escapeHtmlList (a ++ b) = escapeHtmlList a ++ escapeHtmlList b := by
  simp [escapeHtmlList, replaceAllChar_append]

theorem escapeHtmlList_single (x : Char) : escapeHtmlList [x] = htmlEscapeChar x := by
  by_cases h1 : x = '&'
  · subst h1; decide
  · by_cases h2 : x = '<'
    · subst h2; decide
    · by_cases h3 : x = '>'
      · subst h3; decide
      · by_cases h4 : x = '"'
        · subst h4; decide
        · simp [escapeHtmlList, replaceAllChar, htmlEscapeChar, h1, h2, h3, h4]

theorem escapeHtmlList_foldr (l : List Char) :
    escapeHtmlList l = l.foldr (fun c acc => htmlEscapeChar c ++ acc) [] := by
  induction l with
  | nil => rfl
  | cons x xs ih =>
    have h2 : escapeHtmlList (x :: xs) = htmlEscapeChar x ++ escapeHtmlList xs := by
      have h3 := escapeHtmlList_append [x] xs
      simpa [escapeHtmlList_single] using h3
    rw [h2, ih, List.foldr_cons]

theorem tryMatch_link (t d rest : List Char) (ht0 : t ≠ [])
    (ht : ∀ c ∈ t, c ≠ ']' ∧ c ≠ '|') (hd0 : d ≠ []) (hd : ∀ c ∈ d, c ≠ ']') :
    tryMatch ('[' :: '[' :: '#' :: (t ++ '|' :: (d ++ ']' :: ']' :: rest)))
      = some (t, d, rest) := by
  have hp : ∀ c ∈ t, (fun c => !(c == ']' || c == '|')) c = true := by
    intro c hc
    have h := ht c hc
    simp [h.1, h.2]
  have hq : ∀ c ∈ d, (fun c => !(c == ']')) c = true := by
    intro c hc
    have h := hd c hc
    simp [h]
  simp only [tryMatch]
  rw [takeWhile_append_cons _ t '|' _ hp (by decide),
    dropWhile_append_cons _ t '|' _ hp (by decide)]
  rw [if_neg (by simpa using ht0)]
  simp only []
  rw [takeWhile_append_cons _ d ']' _ hq (by decide),
    dropWhile_append_cons _ d ']' _ hq (by decide)]
  rw [if_neg (by simpa using hd0)]
  rfl

theorem tryMatch_onepart (t rest : List Char) (ht : ∀ c ∈ t, c ≠ ']' ∧ c ≠ '|') :
    tryMatch ('[' :: '[' :: '#' :: (t ++ ']' :: rest)) = none := by
  have hp : ∀ c ∈ t, (fun c => !(c == ']' || c == '|')) c = true := by
    intro c hc
    have h := ht c hc
    simp [h.1, h.2]
  simp only [tryMatch]
  rw [takeWhile_append_cons _ t ']' _ hp (by decide),
    dropWhile_append_cons _ t ']' _ hp (by decide)]
  by_cases h0 : t.length = 0
  · rw [if_pos h0]
  · rw [if_neg h0]
    rfl

/-- C9: every `[[#target|displayText]]`-shaped link occurrence scanned by the
foldable path's `wikitextToHtml` is replaced by an anchor element whose target
and display text are both HTML-escaped; the escaping maps `&`, `<`, `>`, `"`
to `&amp;`, `&lt;`, `&gt;`, `&quot;` and leaves every other character
unchanged. -/
theorem wikitextToHtml_escapes_links :
    (∀ (t d rest : List Char),
      t ≠ [] → (∀ c ∈ t, c ≠ ']' ∧ c ≠ '|') →
      d ≠ [] → (∀ c ∈ d, c ≠ ']') →
      wikiScan ('[' :: '[' :: '#' :: (t ++ '|' :: (d ++ ']' :: ']' :: rest)))
        = anchorOpen ++ escapeHtmlList t ++ anchorMid ++ escapeHtmlList d
            ++ anchorClose ++ wikiScan rest)
    ∧ (∀ l : List Char,
        escapeHtmlList l = l.foldr (fun c acc => htmlEscapeChar c ++ acc) [])
    ∧ wikitextToHtml "[[#A&B|C<\"D\">]]"
        = "<a class=\"internal-link\" data-href=\"#A&amp;B\">C&lt;&quot;D&quot;&gt;</a>" := by
  refine ⟨?_, escapeHtmlList_foldr, by decide⟩
  intro t d rest ht0 ht hd0 hd
  exact wikiScan_cons_some '[' _ t d rest (tryMatch_link t d rest ht0 ht hd0 hd)

theorem wikitextToHtml_escapes_links_witness :
    wikiScan ('[' :: '[' :: '#' :: (['A'] ++ '|' :: (['B'] ++ ']' :: ']' :: [])))
      = anchorOpen ++ escapeHtmlList ['A'] ++ anchorMid ++ escapeHtmlList ['B']
          ++ anchorClose ++ wikiScan [] :=
  wikitextToHtml_escapes_links.1 ['A'] ['B'] [] (by decide) (by decide) (by decide) (by decide)

/-- C10: the `wikitextToHtml` scan is the identity on everything that does not
match the two-part `[[#target|displayText]]` shape — a non-matching position
is copied verbatim (no HTML escaping of `&`, `<`, `>`, `"` outside link
notation), a text with no match anywhere is returned unchanged, and a bare
one-part link `[[#target]]` (no pipe) never matches. -/
theorem wikitextToHtml_identity_outside_links :
    (∀ (c : Char) (cs : List Char), tryMatch (c :: cs) = none →
      wikiScan (c :: cs) = c :: wikiScan cs)
    ∧ (∀ l : List Char, (∀ n, tryMatch (l.drop n) = none) → wikiScan l = l)
    ∧ (∀ (t rest : List Char), (∀ c ∈ t, c ≠ ']' ∧ c ≠ '|') →
        tryMatch ('[' :: '[' :: '#' :: (t ++ ']' :: rest)) = none)
    ∧ wikitextToHtml "a & <b> \"c\" [[#Sec]]" = "a & <b> \"c\" [[#Sec]]" := by
  refine ⟨wikiScan_cons_none, ?_, tryMatch_onepart, by decide⟩
  intro l
  induction l with
  | nil => intro _; rfl
  | cons c cs ih =>
    intro h
    rw [wikiScan_cons_none c cs (h 0), ih (fun n => h (n + 1))]

theorem wikitextToHtml_identity_outside_links_witness :
    (wikiScan ['a'] = 'a' :: wikiScan [])
    ∧ (wikiScan ['x', 'y'] = ['x', 'y'])
    ∧ tryMatch ('[' :: '[' :: '#' :: (['S'] ++ ']' :: [])) = none :=
  ⟨wikitextToHtml_identity_outside_links.1 'a' [] (by decide),
   wikitextToHtml_identity_outside_links.2.1 ['x', 'y'] (by
      intro n
      match n with
      | 0 => decide
      | 1 => decide
      | (n + 2) =>
        have hdrop : (['x', 'y'].drop (n + 2)) = [] := by simp
        rw [hdrop]
        rfl),
   wikitextToHtml_identity_outside_links.2.2.1 ['S'] [] (by decide)⟩
